import Mathlib

/-!
# Verification of confidence-driven ensembles (conf_ensembles)

Shallow embedding, over exact rationals, of the ensemble logic in
`confens/classifiers/ConfidenceBoosting.py` and
`src/classifiers/ConfidenceBaggingParallel.py`:

* the confidence-threshold binary search `define_conf_thr`;
* the boosting weight update of `ConfidenceBoosting.fit_ensemble`;
* the bagging feature-subset draw, class-repairing sampler, and the
  weighted / top-k probability aggregation of `ConfidenceBagging`;
* the constructor defaulting logic of `ConfidenceBoosting.__init__`.

Randomness (`numpy.random.choice`, `random.sample`) is modelled by
quantifying over the drawn values, constrained exactly as the library
guarantees (without replacement, within range).  Base estimators are duck
typed in the source (`fit` / `predict_proba`); their outputs appear here as
explicit probability matrices.
-/

namespace ConfEns

/-- Maximum of a list of rationals (`numpy.max` / Python `max`); the source
only applies it to nonempty vectors, `0` is a junk value for `[]`. -/
def listMax : List ℚ → ℚ
  | [] => 0
  | a :: t => t.foldl max a

/-- Minimum of a list of rationals (Python `min(confs)`); junk `0` on `[]`. -/
def listMin : List ℚ → ℚ
  | [] => 0
  | a :: t => t.foldl min a

theorem foldl_max_mem (t : List ℚ) (a : ℚ) : t.foldl max a ∈ a :: t := by
  induction t generalizing a with
  | nil => simp
  | cons b t ih =>
    simp only [List.foldl_cons]
    have h := ih (max a b)
    simp only [List.mem_cons] at h ⊢
    rcases h with h | h
    · rcases max_choice a b with hm | hm
      · left; rw [h, hm]
      · right; left; rw [h, hm]
    · right; right; exact h

theorem init_le_foldl_max (t : List ℚ) (a : ℚ) : a ≤ t.foldl max a := by
  induction t generalizing a with
  | nil => exact le_refl a
  | cons b t ih => exact le_trans (le_max_left a b) (ih (max a b))

theorem le_foldl_max (t : List ℚ) (a x : ℚ) (hx : x ∈ a :: t) :
    x ≤ t.foldl max a := by
  induction t generalizing a with
  | nil =>
    simp only [List.mem_cons, List.not_mem_nil, or_false] at hx
    simp [hx]
  | cons b t ih =>
    simp only [List.foldl_cons]
    simp only [List.mem_cons] at hx
    rcases hx with rfl | rfl | hx
    · exact le_trans (le_max_left x b) (init_le_foldl_max t (max x b))
    · exact le_trans (le_max_right a x) (init_le_foldl_max t (max a x))
    · exact ih (max a b) (by simp [hx])

theorem foldl_min_mem (t : List ℚ) (a : ℚ) : t.foldl min a ∈ a :: t := by
  induction t generalizing a with
  | nil => simp
  | cons b t ih =>
    simp only [List.foldl_cons]
    have h := ih (min a b)
    simp only [List.mem_cons] at h ⊢
    rcases h with h | h
    · rcases min_choice a b with hm | hm
      · left; rw [h, hm]
      · right; left; rw [h, hm]
    · right; right; exact h

theorem foldl_min_le_init (t : List ℚ) (a : ℚ) : t.foldl min a ≤ a := by
  induction t generalizing a with
  | nil => exact le_refl a
  | cons b t ih => exact le_trans (ih (min a b)) (min_le_left a b)

theorem foldl_min_le (t : List ℚ) (a x : ℚ) (hx : x ∈ a :: t) :
    t.foldl min a ≤ x := by
  induction t generalizing a with
  | nil =>
    simp only [List.mem_cons, List.not_mem_nil, or_false] at hx
    simp [hx]
  | cons b t ih =>
    simp only [List.foldl_cons]
    simp only [List.mem_cons] at hx
    rcases hx with rfl | rfl | hx
    · exact le_trans (foldl_min_le_init t (min x b)) (min_le_left x b)
    · exact le_trans (foldl_min_le_init t (min a x)) (min_le_right a x)
    · exact ih (min a b) (by simp [hx])

theorem listMax_mem (l : List ℚ) (h : l ≠ []) : listMax l ∈ l := by
  cases l with
  | nil => exact absurd rfl h
  | cons a t => exact foldl_max_mem t a

theorem le_listMax (l : List ℚ) (x : ℚ) (hx : x ∈ l) : x ≤ listMax l := by
  cases l with
  | nil => simp at hx
  | cons a t => exact le_foldl_max t a x hx

theorem listMin_mem (l : List ℚ) (h : l ≠ []) : listMin l ∈ l := by
  cases l with
  | nil => exact absurd rfl h
  | cons a t => exact foldl_min_mem t a

theorem listMin_le (l : List ℚ) (x : ℚ) (hx : x ∈ l) : listMin l ≤ x := by
  cases l with
  | nil => simp at hx
  | cons a t => exact foldl_min_le t a x hx

theorem listMin_le_listMax (l : List ℚ) (h : l ≠ []) :
    listMin l ≤ listMax l :=
  le_trans (listMin_le l (listMax l) (listMax_mem l h))
    (le_refl _)

/-! ## Confidence Threshold Solver (`define_conf_thr`) -/

/-- `numpy.average(confs < t)`: the fraction of entries strictly below `t`. -/
def fracBelow (confs : List ℚ) (t : ℚ) : ℚ :=
  (confs.countP (fun c => decide (c < t)) : ℚ) / (confs.length : ℚ)

/-- Loop state of `define_conf_thr`: the bracket `[left, right]` and the
candidate threshold `c_thr`. -/
structure ThrState where
  left : ℚ
  right : ℚ
  c_thr : ℚ
  deriving Repr, DecidableEq

/-- Initial state: `left = min(confs)`, `right = max(confs)`,
`c_thr = (right + left) / 2`. -/
def thrInit (confs : List ℚ) : ThrState :=
  { left := listMin confs, right := listMax confs,
    c_thr := (listMax confs + listMin confs) / 2 }

/-- The `while` guard of `define_conf_thr`:
`abs(actual_thr - target_thr) > delta and abs(right_bound - left_bound) > 0.001`. -/
def thrCond (confs : List ℚ) (target delta : ℚ) (s : ThrState) : Prop :=
  |fracBelow confs s.c_thr - target| > delta ∧ |s.right - s.left| > 1 / 1000

instance (confs : List ℚ) (target delta : ℚ) (s : ThrState) :
    Decidable (thrCond confs target delta s) := by
  unfold thrCond; infer_instance

/-- One iteration of the `while` body of `define_conf_thr`. -/
def thrStep (confs : List ℚ) (target : ℚ) (s : ThrState) : ThrState :=
  if fracBelow confs s.c_thr < target then
    { left := s.c_thr, right := s.right, c_thr := (s.c_thr + s.right) / 2 }
  else
    { left := s.left, right := s.c_thr, c_thr := (s.c_thr + s.left) / 2 }

/-- The `while` loop of `define_conf_thr`, run with explicit fuel.  The
source loop needs no fuel; `thrFuel` below provides enough for the bracket
to collapse, which is how termination of the source loop is established. -/
def thrLoop (confs : List ℚ) (target delta : ℚ) : ℕ → ThrState → ThrState
  | 0, s => s
  | fuel + 1, s =>
    if thrCond confs target delta s then
      thrLoop confs target delta fuel (thrStep confs target s)
    else s

/-- Fuel sufficient for the bracket width to fall below `1/1000`:
the width halves each iteration. -/
def thrFuel (confs : List ℚ) : ℕ :=
  (1000 * (listMax confs - listMin confs)).num.natAbs + 1

/-- Final loop state of `define_conf_thr confs target delta`. -/
def thrFinal (confs : List ℚ) (target delta : ℚ) : ThrState :=
  thrLoop confs target delta (thrFuel confs) (thrInit confs)

/-- `define_conf_thr(confs, target, delta)` from
`confens/classifiers/ConfidenceBoosting.py` (the dead local reads
`a = numpy.average(confs < 0.6)` and `b = numpy.average(confs < 0.9)` are
omitted; they do not affect the result).  The source default for `delta`
is `0.01`. -/
def define_conf_thr (confs : List ℚ) (target delta : ℚ) : ℚ :=
  (thrFinal confs target delta).c_thr

/-- Invariant of the bisection loop: the bracket stays inside
`[min(confs), max(confs)]`, is ordered, and `c_thr` is its midpoint. -/
def ThrInv (confs : List ℚ) (s : ThrState) : Prop :=
  listMin confs ≤ s.left ∧ s.left ≤ s.right ∧ s.right ≤ listMax confs ∧
    s.c_thr = (s.left + s.right) / 2

theorem thrInit_inv (confs : List ℚ) (h : confs ≠ []) :
    ThrInv confs (thrInit confs) := by
  refine ⟨le_refl _, listMin_le_listMax confs h, le_refl _, ?_⟩
  simp [thrInit]
  ring

theorem thrStep_inv (confs : List ℚ) (target : ℚ) (s : ThrState)
    (h : ThrInv confs s) : ThrInv confs (thrStep confs target s) := by
  obtain ⟨h1, h2, h3, h4⟩ := h
  unfold thrStep
  split
  · exact ⟨by simp only; linarith, by simp only; linarith, h3, by simp⟩
  · exact ⟨h1, by simp only; linarith, by simp only; linarith, by simp only; ring⟩

theorem thrStep_width (confs : List ℚ) (target : ℚ) (s : ThrState)
    (h : ThrInv confs s) :
    (thrStep confs target s).right - (thrStep confs target s).left
      = (s.right - s.left) / 2 := by
  obtain ⟨h1, h2, h3, h4⟩ := h
  unfold thrStep
  split <;> simp only <;> linarith

theorem thrLoop_inv (confs : List ℚ) (target delta : ℚ) (fuel : ℕ)
    (s : ThrState) (h : ThrInv confs s) :
    ThrInv confs (thrLoop confs target delta fuel s) := by
  induction fuel generalizing s with
  | zero => exact h
  | succ fuel ih =>
    unfold thrLoop
    split
    · exact ih (thrStep confs target s) (thrStep_inv confs target s h)
    · exact h

/-- With enough fuel for the width to collapse, the loop always exits
with the guard false — this is exactly the termination argument for the
source `while` loop. -/
theorem thrLoop_exits (confs : List ℚ) (target delta : ℚ) (fuel : ℕ)
    (s : ThrState) (hInv : ThrInv confs s)
    (hw : 1000 * (s.right - s.left) < 2 ^ fuel) :
    ¬ thrCond confs target delta (thrLoop confs target delta fuel s) := by
  induction fuel generalizing s with
  | zero =>
    intro hc
    simp only [thrLoop] at hc
    obtain ⟨h1, h2, h3, h4⟩ := hInv
    have hrl : |s.right - s.left| = s.right - s.left := abs_of_nonneg (by linarith)
    have := hc.2
    rw [hrl] at this
    norm_num at hw
    linarith
  | succ fuel ih =>
    unfold thrLoop
    split
    · refine ih (thrStep confs target s) (thrStep_inv confs target s hInv) ?_
      rw [thrStep_width confs target s hInv]
      have : (2 : ℚ) ^ (fuel + 1) = 2 * 2 ^ fuel := by ring
      rw [this] at hw
      linarith
    · exact (by assumption)

theorem thrFuel_big (confs : List ℚ) (h : confs ≠ []) :
    1000 * (listMax confs - listMin confs) < 2 ^ thrFuel confs := by
  set q : ℚ := 1000 * (listMax confs - listMin confs) with hq
  have hq0 : 0 ≤ q := by
    have := listMin_le_listMax confs h
    rw [hq]; linarith
  have hnum : 0 ≤ q.num := Rat.num_nonneg.mpr hq0
  have hden : (1 : ℚ) ≤ (q.den : ℚ) := by
    exact_mod_cast Nat.one_le_iff_ne_zero.mpr q.den_nz
  have hle : q ≤ (q.num : ℚ) := by
    calc q = (q.num : ℚ) / (q.den : ℚ) := (Rat.num_div_den q).symm
    _ ≤ (q.num : ℚ) := div_le_self (by exact_mod_cast hnum) hden
  have hcast : (q.num : ℚ) = ((q.num.natAbs : ℕ) : ℚ) := by
    rw [Int.cast_natAbs, abs_of_nonneg hnum]
  have hlt : ((q.num.natAbs : ℕ) : ℚ) < (2 : ℚ) ^ (q.num.natAbs + 1) := by
    have h1 : q.num.natAbs < 2 ^ (q.num.natAbs + 1) := by
      calc q.num.natAbs < 2 ^ q.num.natAbs := Nat.lt_two_pow _
      _ ≤ 2 ^ (q.num.natAbs + 1) := Nat.pow_le_pow_right (by norm_num) (by omega)
    exact_mod_cast h1
  calc q ≤ (q.num : ℚ) := hle
  _ = ((q.num.natAbs : ℕ) : ℚ) := hcast
  _ < (2 : ℚ) ^ (q.num.natAbs + 1) := hlt
  _ = (2 : ℚ) ^ thrFuel confs := by rw [thrFuel, hq]

theorem thrFinal_inv (confs : List ℚ) (target delta : ℚ) (h : confs ≠ []) :
    ThrInv confs (thrFinal confs target delta) :=
  thrLoop_inv confs target delta (thrFuel confs) (thrInit confs)
    (thrInit_inv confs h)

theorem thrFinal_exit (confs : List ℚ) (target delta : ℚ) (h : confs ≠ []) :
    ¬ thrCond confs target delta (thrFinal confs target delta) := by
  refine thrLoop_exits confs target delta (thrFuel confs) (thrInit confs)
    (thrInit_inv confs h) ?_
  simpa [thrInit] using thrFuel_big confs h

/-- **C1.**  For every confidence vector with at least two distinct values
and every target fraction, `define_conf_thr` terminates (the fuelled loop
reaches a state in which the source `while` guard is false) and returns a
threshold within `[min(confs), max(confs)]` such that, at return, either
the fraction of confidences strictly below the threshold deviates from the
target by at most the tolerance `delta`, or the bracket width has
collapsed to at most `0.001`. -/
theorem C1_define_conf_thr_correct (confs : List ℚ) (target delta : ℚ)
    (a b : ℚ) (ha : a ∈ confs) (hb : b ∈ confs) (hab : a ≠ b) :
    listMin confs ≤ define_conf_thr confs target delta ∧
    define_conf_thr confs target delta ≤ listMax confs ∧
    (|fracBelow confs (define_conf_thr confs target delta) - target| ≤ delta ∨
      |(thrFinal confs target delta).right - (thrFinal confs target delta).left|
        ≤ 1 / 1000) := by
  have hne : confs ≠ [] := by
    intro hnil
    rw [hnil] at ha
    simp at ha
  obtain ⟨h1, h2, h3, h4⟩ := thrFinal_inv confs target delta hne
  have hexit := thrFinal_exit confs target delta hne
  unfold thrCond at hexit
  push_neg at hexit
  refine ⟨?_, ?_, ?_⟩
  · rw [define_conf_thr, h4]; linarith
  · rw [define_conf_thr, h4]; linarith
  · rcases le_or_lt
      |fracBelow confs (define_conf_thr confs target delta) - target| delta with
      hle | hgt
    · exact Or.inl hle
    · exact Or.inr (hexit hgt)

theorem C1_define_conf_thr_correct_witness :
    ((1 : ℚ) / 2 ∈ [(1 : ℚ) / 2, 1]) ∧ ((1 : ℚ) ∈ [(1 : ℚ) / 2, 1]) ∧
    ((1 : ℚ) / 2 ≠ 1) ∧
    (listMin [(1 : ℚ) / 2, 1] ≤ define_conf_thr [(1 : ℚ) / 2, 1] (4/5) (1/100) ∧
      define_conf_thr [(1 : ℚ) / 2, 1] (4/5) (1/100) ≤ listMax [(1 : ℚ) / 2, 1] ∧
      (|fracBelow [(1 : ℚ) / 2, 1]
          (define_conf_thr [(1 : ℚ) / 2, 1] (4/5) (1/100)) - 4/5| ≤ 1/100 ∨
        |(thrFinal [(1 : ℚ) / 2, 1] (4/5) (1/100)).right -
            (thrFinal [(1 : ℚ) / 2, 1] (4/5) (1/100)).left| ≤ 1 / 1000)) :=
  ⟨by simp, by simp, by norm_num,
    C1_define_conf_thr_correct [(1 : ℚ) / 2, 1] (4/5) (1/100) ((1 : ℚ) / 2) 1
      (by simp) (by simp) (by norm_num)⟩

/-! ## Boosting weight update (`ConfidenceBoosting.fit_ensemble`) -/

/-- One entry of `update_flag = numpy.where(y_conf >= p_thr, 0, 1)`. -/
def updateFlag (thr c : ℚ) : ℚ := if thr ≤ c then 0 else 1

/-- The pre-normalization weights `weights * (1 + self.learning_rate * update_flag)`. -/
def preWeights (lr thr : ℚ) (confs weights : List ℚ) : List ℚ :=
  List.zipWith (fun c w => w * (1 + lr * updateFlag thr c)) confs weights

/-- One round's weight update of `fit_ensemble`: multiply, then renormalize
with `weights = weights / sum(weights)`. -/
def updateWeights (lr thr : ℚ) (confs weights : List ℚ) : List ℚ :=
  (preWeights lr thr confs weights).map
    (fun w => w / (preWeights lr thr confs weights).sum)

/-- `weights = numpy.full(train_n, 1 / train_n)`. -/
def initWeights (n : ℕ) : List ℚ := List.replicate n (1 / (n : ℚ))

/-- Weight evolution across the boosting rounds of `fit_ensemble`: the
`k`-th entry of `confRounds` is the `k`-th member's confidence vector
`y_conf = numpy.max(learner.predict_proba(X), axis=1)` on the full training
set (the member itself is duck-typed in the source, so its output is taken
as data); each round sets
`p_thr = define_conf_thr(target=self.boost_thr, confs=y_conf)` (default
`delta = 0.01`) and updates the weights. -/
def boostStep (lr boost_thr : ℚ) (w confs : List ℚ) : List ℚ :=
  updateWeights lr (define_conf_thr confs boost_thr (1/100)) confs w

/-- Folding `boostStep` over all rounds, starting from the uniform weights. -/
def boostWeights (lr boost_thr : ℚ) (n : ℕ) (confRounds : List (List ℚ)) :
    List ℚ :=
  confRounds.foldl (boostStep lr boost_thr) (initWeights n)

theorem getD_preWeights (lr thr : ℚ) (confs weights : List ℚ) (i : ℕ)
    (h1 : i < confs.length) (h2 : i < weights.length) :
    (preWeights lr thr confs weights).getD i 0
      = weights.getD i 0 * (1 + lr * updateFlag thr (confs.getD i 0)) := by
  have hlen : i < (preWeights lr thr confs weights).length := by
    rw [preWeights, List.length_zipWith]
    exact lt_min h1 h2
  rw [List.getD_eq_getElem _ _ hlen, List.getD_eq_getElem _ _ h1,
    List.getD_eq_getElem _ _ h2]
  simp only [preWeights, List.getElem_zipWith]

theorem mem_preWeights_pos (lr thr : ℚ) (confs weights : List ℚ)
    (hlr : 0 ≤ lr) (hpos : ∀ w ∈ weights, 0 < w) :
    ∀ x ∈ preWeights lr thr confs weights, 0 < x := by
  induction confs generalizing weights with
  | nil => intro x hx; simp [preWeights] at hx
  | cons c cs ih =>
    intro x hx
    cases weights with
    | nil => simp [preWeights] at hx
    | cons w ws =>
      simp only [preWeights, List.zipWith_cons_cons, List.mem_cons] at hx
      rcases hx with rfl | hx
      · have hw : 0 < w := hpos w (by simp)
        have hflag : (0:ℚ) ≤ updateFlag thr c := by
          unfold updateFlag; split <;> norm_num
        have : (0:ℚ) < 1 + lr * updateFlag thr c := by positivity
        positivity
      · exact ih ws (fun w hw => hpos w (by simp [hw])) x hx

theorem sum_map_div (l : List ℚ) (s : ℚ) :
    (l.map (fun w => w / s)).sum = l.sum / s := by
  induction l with
  | nil => simp
  | cons a t ih => simp [ih, add_div]

theorem updateWeights_invariant (lr thr : ℚ) (confs weights : List ℚ)
    (hlr : 0 ≤ lr) (hlen : confs.length = weights.length)
    (hne : weights ≠ []) (hpos : ∀ w ∈ weights, 0 < w) :
    (∀ w ∈ updateWeights lr thr confs weights, 0 < w) ∧
    (updateWeights lr thr confs weights).length = weights.length ∧
    (updateWeights lr thr confs weights).sum = 1 := by
  have hprelen : (preWeights lr thr confs weights).length = weights.length := by
    rw [preWeights, List.length_zipWith, hlen, min_self]
  have hprene : preWeights lr thr confs weights ≠ [] := by
    intro hcon
    apply hne
    rw [← List.length_eq_zero, ← hprelen, hcon, List.length_nil]
  have hprepos := mem_preWeights_pos lr thr confs weights hlr hpos
  have hsum : 0 < (preWeights lr thr confs weights).sum :=
    List.sum_pos _ hprepos hprene
  refine ⟨?_, ?_, ?_⟩
  · intro w hw
    rw [updateWeights] at hw
    obtain ⟨x, hx, rfl⟩ := List.mem_map.mp hw
    exact div_pos (hprepos x hx) hsum
  · rw [updateWeights, List.length_map, hprelen]
  · rw [updateWeights, sum_map_div, div_self (ne_of_gt hsum)]

theorem getD_updateWeights (lr thr : ℚ) (confs weights : List ℚ) (k : ℕ)
    (hk : k < (preWeights lr thr confs weights).length) :
    (updateWeights lr thr confs weights).getD k 0
      = (preWeights lr thr confs weights).getD k 0
        / (preWeights lr thr confs weights).sum := by
  have hk' : k < (updateWeights lr thr confs weights).length := by
    rw [updateWeights, List.length_map]; exact hk
  rw [List.getD_eq_getElem _ _ hk', List.getD_eq_getElem _ _ hk]
  simp only [updateWeights, List.getElem_map]

theorem getD_mem_of_lt {α : Type} (l : List α) (d : α) (k : ℕ)
    (hk : k < l.length) : l.getD k d ∈ l := by
  rw [List.getD_eq_getElem _ _ hk]
  exact l.getElem_mem hk

/-- **C2.**  In each boosting round, after the per-round threshold is
computed, every row whose confidence is below the threshold has its weight
multiplied by `1 + learning_rate` and every row at or above the threshold
has its weight multiplied by `1`, before renormalization; consequently,
for a positive learning rate, a below-threshold row ends the round with
strictly greater updated weight than an at-or-above row that had equal
(positive) weight before the update. -/
theorem C2_reweight_below_above (lr thr : ℚ) (confs weights : List ℚ)
    (hlen : confs.length = weights.length) (i j : ℕ)
    (hi : i < confs.length) (hj : j < confs.length)
    (hci : confs.getD i 0 < thr) (hcj : thr ≤ confs.getD j 0)
    (heq : weights.getD i 0 = weights.getD j 0)
    (hpos : ∀ w ∈ weights, 0 < w) (hlr : 0 < lr) :
    (preWeights lr thr confs weights).getD i 0
      = weights.getD i 0 * (1 + lr) ∧
    (preWeights lr thr confs weights).getD j 0
      = weights.getD j 0 * 1 ∧
    (updateWeights lr thr confs weights).getD j 0
      < (updateWeights lr thr confs weights).getD i 0 := by
  have hi' : i < weights.length := hlen ▸ hi
  have hj' : j < weights.length := hlen ▸ hj
  have hprelen : (preWeights lr thr confs weights).length = weights.length := by
    rw [preWeights, List.length_zipWith, hlen, min_self]
  have hfi : updateFlag thr (confs.getD i 0) = 1 := by
    unfold updateFlag; rw [if_neg (not_le.mpr hci)]
  have hfj : updateFlag thr (confs.getD j 0) = 0 := by
    unfold updateFlag; rw [if_pos hcj]
  have hpi := getD_preWeights lr thr confs weights i hi hi'
  have hpj := getD_preWeights lr thr confs weights j hj hj'
  rw [hfi, mul_one] at hpi
  rw [hfj, mul_zero, add_zero] at hpj
  have hwi : 0 < weights.getD i 0 :=
    hpos _ (getD_mem_of_lt weights 0 i hi')
  have hne : weights ≠ [] := by
    intro hnil; rw [hnil] at hi'; simp at hi'
  have hsum : 0 < (preWeights lr thr confs weights).sum :=
    List.sum_pos _ (mem_preWeights_pos lr thr confs weights (le_of_lt hlr) hpos)
      (by intro hcon; apply hne
          rw [← List.length_eq_zero, ← hprelen, hcon, List.length_nil])
  have hlt : (preWeights lr thr confs weights).getD j 0
      < (preWeights lr thr confs weights).getD i 0 := by
    rw [hpi, hpj, mul_one, ← heq]
    nlinarith
  refine ⟨hpi, by rw [hpj, mul_one], ?_⟩
  rw [getD_updateWeights lr thr confs weights i (by rw [hprelen]; exact hi'),
    getD_updateWeights lr thr confs weights j (by rw [hprelen]; exact hj')]
  exact (div_lt_div_iff_of_pos_right hsum).mpr hlt

theorem C2_reweight_below_above_witness :
    (([(1:ℚ)/2, 1] : List ℚ).length = ([(1:ℚ)/2, (1:ℚ)/2] : List ℚ).length) ∧
    (0 : ℕ) < 2 ∧ (1 : ℕ) < 2 ∧
    (([(1:ℚ)/2, 1].getD 0 0 : ℚ) < 3/4) ∧ ((3:ℚ)/4 ≤ [(1:ℚ)/2, 1].getD 1 0) ∧
    (([(1:ℚ)/2, (1:ℚ)/2].getD 0 0 : ℚ) = [(1:ℚ)/2, (1:ℚ)/2].getD 1 0) ∧
    (∀ w ∈ ([(1:ℚ)/2, (1:ℚ)/2] : List ℚ), 0 < w) ∧ ((0:ℚ) < 2) ∧
    ((preWeights 2 (3/4) [(1:ℚ)/2, 1] [(1:ℚ)/2, (1:ℚ)/2]).getD 0 0
        = [(1:ℚ)/2, (1:ℚ)/2].getD 0 0 * (1 + 2) ∧
      (preWeights 2 (3/4) [(1:ℚ)/2, 1] [(1:ℚ)/2, (1:ℚ)/2]).getD 1 0
        = [(1:ℚ)/2, (1:ℚ)/2].getD 1 0 * 1 ∧
      (updateWeights 2 (3/4) [(1:ℚ)/2, 1] [(1:ℚ)/2, (1:ℚ)/2]).getD 1 0
        < (updateWeights 2 (3/4) [(1:ℚ)/2, 1] [(1:ℚ)/2, (1:ℚ)/2]).getD 0 0) :=
  ⟨rfl, by norm_num, by norm_num, by norm_num, by norm_num, by norm_num,
    by intro w hw; rcases List.mem_cons.mp hw with rfl | hw
       · norm_num
       · rcases List.mem_cons.mp hw with rfl | hw
         · norm_num
         · simp at hw,
    by norm_num,
    C2_reweight_below_above 2 (3/4) [(1:ℚ)/2, 1] [(1:ℚ)/2, (1:ℚ)/2] rfl 0 1
      (by norm_num) (by norm_num) (by norm_num) (by norm_num) (by norm_num)
      (by intro w hw; rcases List.mem_cons.mp hw with rfl | hw
          · norm_num
          · rcases List.mem_cons.mp hw with rfl | hw
            · norm_num
            · simp at hw)
      (by norm_num)⟩

theorem boost_foldl_invariant (lr boost_thr : ℚ) (rounds : List (List ℚ))
    (n : ℕ) (hn : 1 ≤ n) (hlr : 0 ≤ lr) (hlen : ∀ c ∈ rounds, c.length = n)
    (ws : List ℚ) (hpos : ∀ w ∈ ws, 0 < w) (hwlen : ws.length = n)
    (hsum : ws.sum = 1) :
    (∀ w ∈ rounds.foldl (boostStep lr boost_thr) ws, 0 < w) ∧
    (rounds.foldl (boostStep lr boost_thr) ws).length = n ∧
    (rounds.foldl (boostStep lr boost_thr) ws).sum = 1 := by
  induction rounds generalizing ws with
  | nil => exact ⟨hpos, hwlen, hsum⟩
  | cons c cs ih =>
    have hc : c.length = n := hlen c (by simp)
    have hne : ws ≠ [] := by
      intro hnil; rw [hnil] at hwlen; simp at hwlen; omega
    obtain ⟨h1, h2, h3⟩ := updateWeights_invariant lr
      (define_conf_thr c boost_thr (1/100)) c ws hlr (by rw [hc, hwlen]) hne hpos
    simp only [List.foldl_cons]
    exact ih (fun d hd => hlen d (by simp [hd])) (boostStep lr boost_thr ws c)
      h1 (by rw [boostStep, h2, hwlen]) h3

/-- **C7.**  During boosting training, the sample-weight vector is
initialized uniform over the `n` training rows, and after every boosting
round every weight is non-negative and the weights sum to exactly `1`
(the tolerance is only needed for floating point; over `ℚ` the sum is
exact), for every number of completed rounds and every sequence of member
confidence vectors. -/
theorem C7_weights_invariant (lr boost_thr : ℚ) (n : ℕ)
    (confRounds : List (List ℚ)) (hn : 1 ≤ n) (hlr : 0 ≤ lr)
    (hlen : ∀ c ∈ confRounds, c.length = n) :
    initWeights n = List.replicate n (1 / (n : ℚ)) ∧
    ∀ k : ℕ,
      (∀ w ∈ boostWeights lr boost_thr n (confRounds.take k), 0 ≤ w) ∧
      (boostWeights lr boost_thr n (confRounds.take k)).sum = 1 := by
  have hn0 : (n : ℚ) ≠ 0 := by
    exact_mod_cast Nat.one_le_iff_ne_zero.mp hn
  have hinit_pos : ∀ w ∈ initWeights n, 0 < w := by
    intro w hw
    rw [initWeights] at hw
    rw [List.eq_of_mem_replicate hw]
    positivity
  have hinit_len : (initWeights n).length = n := by
    rw [initWeights, List.length_replicate]
  have hinit_sum : (initWeights n).sum = 1 := by
    rw [initWeights, List.sum_replicate, nsmul_eq_mul, mul_one_div,
      div_self hn0]
  refine ⟨rfl, fun k => ?_⟩
  obtain ⟨h1, _, h3⟩ := boost_foldl_invariant lr boost_thr (confRounds.take k)
    n hn hlr (fun c hc => hlen c (List.take_subset k confRounds hc))
    (initWeights n) hinit_pos hinit_len hinit_sum
  exact ⟨fun w hw => le_of_lt (h1 w hw), h3⟩

theorem C7_weights_invariant_witness :
    (1 ≤ 2) ∧ ((0:ℚ) ≤ 2) ∧ (∀ c ∈ [[(1:ℚ)/2, 1]], c.length = 2) ∧
    (initWeights 2 = List.replicate 2 (1 / (2 : ℚ)) ∧
      ∀ k : ℕ,
        (∀ w ∈ boostWeights 2 (4/5) 2 ([[(1:ℚ)/2, 1]].take k), 0 ≤ w) ∧
        (boostWeights 2 (4/5) 2 ([[(1:ℚ)/2, 1]].take k)).sum = 1) :=
  ⟨by norm_num, by norm_num,
    by intro c hc
       rcases List.mem_cons.mp hc with rfl | hc
       · rfl
       · simp at hc,
    C7_weights_invariant 2 (4/5) 2 [[(1:ℚ)/2, 1]] (by norm_num) (by norm_num)
      (by intro c hc
          rcases List.mem_cons.mp hc with rfl | hc
          · rfl
          · simp at hc)⟩

/-! ## Bagging prediction aggregation (`ConfidenceBagging.predict_proba`)

The aggregation is row-wise in the source; it is embedded here for one
test row.  `probas` is the list of the members' probability vectors for
that row (`proba_array[:, i, :]`), so `probas.map listMax` is
`conf_array[i]` after the transpose. -/

instance : IsTotal ℚ (fun a b : ℚ => b ≤ a) := ⟨fun a b => le_total b a⟩

instance : IsTrans ℚ (fun a b : ℚ => b ≤ a) :=
  ⟨fun _ _ _ h1 h2 => le_trans h2 h1⟩

/-- `-numpy.sort(-conf_array, axis=1)`: confidences in descending order. -/
def sortDesc (l : List ℚ) : List ℚ := l.insertionSort (fun a b => b ≤ a)

/-- `conf_thrs[i] = all_conf[:, self.n_decisors - 1]`: the `k`-th highest
confidence of the row. -/
def kthHighest (confs : List ℚ) (k : ℕ) : ℚ := (sortDesc confs).getD (k - 1) 0

/-- The member indices picked by
`numpy.where(conf_array[i] >= conf_thrs[i])`. -/
def topkSelected (confs : List ℚ) (k : ℕ) : List ℕ :=
  (List.range confs.length).filter
    (fun j => decide (kthHighest confs k ≤ confs.getD j 0))

/-- `proba_array[0].shape`: the class count, read off the first member. -/
def nClasses (probas : List (List ℚ)) : ℕ := (probas.headD []).length

/-- Top-k aggregation for one row:
`numpy.average(proba_array[numpy.where(conf_array[i] >= conf_thrs[i]), i, :], axis=1)`. -/
def topkRow (probas : List (List ℚ)) (k : ℕ) : List ℚ :=
  (List.range (nClasses probas)).map
    (fun c => ((topkSelected (probas.map listMax) k).map
        (fun j => (probas.getD j []).getD c 0)).sum
      / ((topkSelected (probas.map listMax) k).length : ℚ))

/-- Weighted aggregation for one row:
`numpy.sum(proba_array[:, i, :].T * conf_array[:, i], axis=1) / numpy.sum(conf_array[:, i])`. -/
def weightedRow (probas : List (List ℚ)) : List ℚ :=
  (List.range (nClasses probas)).map
    (fun c => (probas.map (fun p => listMax p * p.getD c 0)).sum
      / (probas.map listMax).sum)

theorem sortDesc_sorted (l : List ℚ) :
    List.Sorted (fun a b : ℚ => b ≤ a) (sortDesc l) :=
  List.sorted_insertionSort _ l

theorem sortDesc_perm (l : List ℚ) : (sortDesc l).Perm l :=
  List.perm_insertionSort _ l

theorem sortDesc_length (l : List ℚ) : (sortDesc l).length = l.length :=
  (sortDesc_perm l).length_eq

/-- In a strictly descending list, exactly `i + 1` entries are `≥` the
entry at position `i`. -/
theorem sorted_desc_countP (s : List ℚ)
    (hs : List.Sorted (fun a b : ℚ => b ≤ a) s) (hnd : s.Nodup) (i : ℕ)
    (hi : i < s.length) :
    s.countP (fun x => decide (s.getD i 0 ≤ x)) = i + 1 := by
  induction s generalizing i with
  | nil => simp at hi
  | cons a t ih =>
    rw [List.countP_cons]
    cases i with
    | zero =>
      rw [List.getD_cons_zero]
      have hzero : t.countP (fun x => decide (a ≤ x)) = 0 := by
        rw [List.countP_eq_zero]
        intro x hx
        have hle : x ≤ a := List.rel_of_sorted_cons hs x hx
        have hne : x ≠ a := by
          intro hcon
          exact (List.nodup_cons.mp hnd).1 (hcon ▸ hx)
        simp only [decide_eq_true_eq]
        intro hax
        exact hne (le_antisymm hle hax)
      rw [hzero]
      simp
    | succ i =>
      rw [List.getD_cons_succ]
      have hi' : i < t.length := by
        rw [List.length_cons] at hi; omega
      have hta : t.getD i 0 ≤ a :=
        List.rel_of_sorted_cons hs _ (getD_mem_of_lt t 0 i hi')
      rw [ih (List.sorted_cons.mp hs).2 (List.nodup_cons.mp hnd).2 i hi']
      simp only [decide_eq_true_eq]
      rw [if_pos hta]

theorem length_filter_range_getD (l : List ℚ) (p : ℚ → Bool) :
    ((List.range l.length).filter (fun j => p (l.getD j 0))).length
      = l.countP p := by
  induction l with
  | nil => simp
  | cons a t ih =>
    rw [List.length_cons, List.range_succ_eq_map, List.filter_cons,
      List.countP_cons]
    have hmap : (List.filter (fun j => p ((a :: t).getD j 0))
          (List.map Nat.succ (List.range t.length))).length
        = t.countP p := by
      rw [List.filter_map]
      rw [List.length_map]
      have hcomp : ((fun j => p ((a :: t).getD j 0)) ∘ Nat.succ)
          = (fun j => p (t.getD j 0)) := by
        funext j
        simp [Function.comp, List.getD_cons_succ]
      rw [hcomp, ih]
    simp only [List.getD_cons_zero]
    by_cases hpa : p a
    · rw [if_pos hpa, if_pos hpa, List.length_cons, hmap]
    · rw [if_neg hpa, if_neg hpa, hmap, Nat.add_zero]

/-- For distinct confidences, the inclusive cutoff selects exactly `k`
members. -/
theorem topkSelected_length (confs : List ℚ) (k : ℕ) (hnd : confs.Nodup)
    (hk1 : 1 ≤ k) (hk2 : k ≤ confs.length) :
    (topkSelected confs k).length = k := by
  rw [topkSelected,
    length_filter_range_getD confs (fun x => decide (kthHighest confs k ≤ x))]
  have hperm := sortDesc_perm confs
  rw [← hperm.countP_eq]
  have hnd' : (sortDesc confs).Nodup := hperm.nodup_iff.mpr hnd
  have hk : k - 1 < (sortDesc confs).length := by
    rw [sortDesc_length]; omega
  have := sorted_desc_countP (sortDesc confs) (sortDesc_sorted confs) hnd'
    (k - 1) hk
  rw [kthHighest]
  rw [this]
  omega

/-- The `k`-th highest confidence is attained by some member, which the
inclusive cutoff always selects. -/
theorem topkSelected_ne_nil (confs : List ℚ) (k : ℕ)
    (hk1 : 1 ≤ k) (hk2 : k ≤ confs.length) :
    topkSelected confs k ≠ [] := by
  have hk : k - 1 < (sortDesc confs).length := by
    rw [sortDesc_length]; omega
  have hmem : kthHighest confs k ∈ confs := by
    rw [kthHighest]
    exact (sortDesc_perm confs).mem_iff.mp (getD_mem_of_lt _ 0 _ hk)
  obtain ⟨n, hn⟩ := List.mem_iff_get.mp hmem
  have hjin : (n : ℕ) ∈ topkSelected confs k := by
    rw [topkSelected, List.mem_filter, List.mem_range]
    refine ⟨n.isLt, ?_⟩
    rw [List.getD_eq_getElem _ _ n.isLt]
    simp only [decide_eq_true_eq]
    rw [show confs[(n : ℕ)] = confs.get n from rfl, hn]
  intro hcon
  rw [hcon] at hjin
  simp at hjin

/-- **C3.**  In bagging top-k prediction (`weighted=False`), the members
contributing to a row's averaged probability vector are exactly those
whose confidence is at least the `n_decisors`-th highest confidence of
that row (ties at the cutoff included); for a row where all member
confidences are distinct, exactly `n_decisors` members contribute, and
their probability vectors are averaged unweighted (plain mean with
denominator `n_decisors`). -/
theorem C3_topk_contributors (probas : List (List ℚ)) (k : ℕ)
    (hk1 : 1 ≤ k) (hk2 : k ≤ probas.length) :
    (∀ j : ℕ, j ∈ topkSelected (probas.map listMax) k ↔
      j < probas.length ∧
        kthHighest (probas.map listMax) k ≤ (probas.map listMax).getD j 0) ∧
    ((probas.map listMax).Nodup →
      (topkSelected (probas.map listMax) k).length = k ∧
      topkRow probas k = (List.range (nClasses probas)).map
        (fun c => ((topkSelected (probas.map listMax) k).map
            (fun j => (probas.getD j []).getD c 0)).sum / (k : ℚ))) := by
  have hmlen : (probas.map listMax).length = probas.length :=
    List.length_map _ _
  constructor
  · intro j
    rw [topkSelected, List.mem_filter, List.mem_range, hmlen]
    simp only [decide_eq_true_eq]
  · intro hnd
    have hcount := topkSelected_length (probas.map listMax) k hnd hk1
      (by rw [hmlen]; exact hk2)
    exact ⟨hcount, by simp only [topkRow, hcount]⟩

theorem C3_topk_contributors_witness :
    (1 ≤ 2) ∧
    (2 ≤ ([[(9:ℚ)/10, 1/10], [(6:ℚ)/10, 4/10], [(8:ℚ)/10, 2/10]] :
      List (List ℚ)).length) ∧
    ((∀ j : ℕ,
      j ∈ topkSelected
          (([[(9:ℚ)/10, 1/10], [(6:ℚ)/10, 4/10], [(8:ℚ)/10, 2/10]] :
            List (List ℚ)).map listMax) 2 ↔
        j < ([[(9:ℚ)/10, 1/10], [(6:ℚ)/10, 4/10], [(8:ℚ)/10, 2/10]] :
          List (List ℚ)).length ∧
          kthHighest
              (([[(9:ℚ)/10, 1/10], [(6:ℚ)/10, 4/10], [(8:ℚ)/10, 2/10]] :
                List (List ℚ)).map listMax) 2 ≤
            (([[(9:ℚ)/10, 1/10], [(6:ℚ)/10, 4/10], [(8:ℚ)/10, 2/10]] :
              List (List ℚ)).map listMax).getD j 0) ∧
    ((([[(9:ℚ)/10, 1/10], [(6:ℚ)/10, 4/10], [(8:ℚ)/10, 2/10]] :
        List (List ℚ)).map listMax).Nodup →
      (topkSelected
        (([[(9:ℚ)/10, 1/10], [(6:ℚ)/10, 4/10], [(8:ℚ)/10, 2/10]] :
          List (List ℚ)).map listMax) 2).length = 2 ∧
      topkRow ([[(9:ℚ)/10, 1/10], [(6:ℚ)/10, 4/10], [(8:ℚ)/10, 2/10]] :
          List (List ℚ)) 2 =
        (List.range (nClasses
            ([[(9:ℚ)/10, 1/10], [(6:ℚ)/10, 4/10], [(8:ℚ)/10, 2/10]] :
              List (List ℚ)))).map
          (fun c => ((topkSelected
              (([[(9:ℚ)/10, 1/10], [(6:ℚ)/10, 4/10], [(8:ℚ)/10, 2/10]] :
                List (List ℚ)).map listMax) 2).map
              (fun j =>
                ((([[(9:ℚ)/10, 1/10], [(6:ℚ)/10, 4/10], [(8:ℚ)/10, 2/10]] :
                  List (List ℚ))).getD j []).getD c 0)).sum / (2 : ℚ)))) :=
  ⟨by norm_num, by norm_num,
    C3_topk_contributors
      ([[(9:ℚ)/10, 1/10], [(6:ℚ)/10, 4/10], [(8:ℚ)/10, 2/10]] : List (List ℚ))
      2 (by norm_num) (by norm_num)⟩

/-! ## Row sums of the aggregated probabilities -/

theorem sum_swap_lists {α β : Type} (l1 : List α) (l2 : List β)
    (f : α → β → ℚ) :
    (l1.map (fun a => (l2.map (f a)).sum)).sum
      = (l2.map (fun b => (l1.map (fun a => f a b)).sum)).sum := by
  induction l1 with
  | nil => simp
  | cons a t ih =>
    simp only [List.map_cons, List.sum_cons, ih]
    rw [← List.sum_map_add]

theorem map_getD_range (l : List ℚ) :
    (List.range l.length).map (fun c => l.getD c 0) = l := by
  induction l with
  | nil => simp
  | cons a t ih =>
    rw [List.length_cons, List.range_succ_eq_map, List.map_cons,
      List.map_map]
    have hcomp : ((fun c => (a :: t).getD c 0) ∘ Nat.succ)
        = fun c => t.getD c 0 := by
      funext c
      simp [Function.comp, List.getD_cons_succ]
    rw [List.getD_cons_zero, hcomp, ih]

theorem exists_pos_of_sum_pos (l : List ℚ) (h : 0 < l.sum) :
    ∃ x ∈ l, 0 < x := by
  induction l with
  | nil => simp at h
  | cons a t ih =>
    rcases lt_or_le 0 a with ha | ha
    · exact ⟨a, by simp, ha⟩
    · have ht : 0 < t.sum := by
        rw [List.sum_cons] at h; linarith
      obtain ⟨x, hx, hxp⟩ := ih ht
      exact ⟨x, by simp [hx], hxp⟩

theorem listMax_pos_of_sum_one (p : List ℚ) (h : p.sum = 1) :
    0 < listMax p := by
  obtain ⟨x, hx, hxp⟩ := exists_pos_of_sum_pos p (by rw [h]; norm_num)
  exact lt_of_lt_of_le hxp (le_listMax p x hx)

theorem sum_row_getD (p : List ℚ) (nc : ℕ) (hlen : p.length = nc) :
    ((List.range nc).map (fun c => p.getD c 0)).sum = p.sum := by
  rw [← hlen, map_getD_range]

theorem sum_map_one {α : Type} (l : List α) :
    (l.map (fun _ => (1 : ℚ))).sum = (l.length : ℚ) := by
  induction l with
  | nil => simp
  | cons a t ih =>
    rw [List.map_cons, List.sum_cons, ih, List.length_cons]
    push_cast
    ring

theorem weightedRow_sum_one (probas : List (List ℚ)) (hne : probas ≠ [])
    (hlen : ∀ p ∈ probas, p.length = nClasses probas)
    (hsum1 : ∀ p ∈ probas, p.sum = 1) :
    (weightedRow probas).sum = 1 := by
  have hSpos : 0 < (probas.map listMax).sum := by
    apply List.sum_pos
    · intro x hx
      obtain ⟨p, hp, rfl⟩ := List.mem_map.mp hx
      exact listMax_pos_of_sum_one p (hsum1 p hp)
    · simpa using hne
  rw [weightedRow]
  rw [show ((List.range (nClasses probas)).map
      (fun c => (probas.map (fun p => listMax p * p.getD c 0)).sum
        / (probas.map listMax).sum))
    = ((List.range (nClasses probas)).map
      (fun c => (probas.map (fun p => listMax p * p.getD c 0)).sum)).map
        (fun w => w / (probas.map listMax).sum) from by
      rw [List.map_map]; exact rfl]
  rw [sum_map_div]
  rw [sum_swap_lists (List.range (nClasses probas)) probas
    (fun c p => listMax p * p.getD c 0)]
  rw [List.map_congr_left (g := listMax)
    (fun p hp => by
      rw [List.sum_map_mul_left, sum_row_getD p (nClasses probas) (hlen p hp),
        hsum1 p hp, mul_one])]
  exact div_self (ne_of_gt hSpos)

theorem topkRow_sum_one (probas : List (List ℚ)) (k : ℕ)
    (hlen : ∀ p ∈ probas, p.length = nClasses probas)
    (hsum1 : ∀ p ∈ probas, p.sum = 1)
    (hk1 : 1 ≤ k) (hk2 : k ≤ probas.length) :
    (topkRow probas k).sum = 1 := by
  have hmlen : (probas.map listMax).length = probas.length :=
    List.length_map _ _
  have hselne : topkSelected (probas.map listMax) k ≠ [] :=
    topkSelected_ne_nil (probas.map listMax) k hk1 (by rw [hmlen]; exact hk2)
  have hLpos : 0 < ((topkSelected (probas.map listMax) k).length : ℚ) := by
    exact_mod_cast List.length_pos.mpr hselne
  have hmem : ∀ j ∈ topkSelected (probas.map listMax) k,
      probas.getD j [] ∈ probas := by
    intro j hj
    rw [topkSelected, List.mem_filter, List.mem_range, hmlen] at hj
    exact getD_mem_of_lt probas [] j hj.1
  rw [topkRow]
  rw [show ((List.range (nClasses probas)).map
      (fun c => ((topkSelected (probas.map listMax) k).map
          (fun j => (probas.getD j []).getD c 0)).sum
        / ((topkSelected (probas.map listMax) k).length : ℚ)))
    = ((List.range (nClasses probas)).map
      (fun c => ((topkSelected (probas.map listMax) k).map
          (fun j => (probas.getD j []).getD c 0)).sum)).map
        (fun w => w / ((topkSelected (probas.map listMax) k).length : ℚ))
    from by rw [List.map_map]; exact rfl]
  rw [sum_map_div]
  rw [sum_swap_lists (List.range (nClasses probas))
    (topkSelected (probas.map listMax) k)
    (fun c j => (probas.getD j []).getD c 0)]
  rw [List.map_congr_left (g := fun _ => (1 : ℚ))
    (fun j hj => by
      rw [sum_row_getD (probas.getD j []) (nClasses probas)
          (hlen _ (hmem j hj)),
        hsum1 _ (hmem j hj)])]
  rw [sum_map_one]
  exact div_self (ne_of_gt hLpos)

/-- **C9.**  For every fitted bagging ensemble whose members' probability
outputs are valid probability rows (non-negative, summing to 1), each row
of the ensemble's `predict_proba` output sums to exactly 1, in both the
weighted and the top-k aggregation modes (over `ℚ` the floating tolerance
is not needed). -/
theorem C9_predict_proba_rows_sum_one (probas : List (List ℚ)) (k : ℕ)
    (hne : probas ≠ [])
    (hlen : ∀ p ∈ probas, p.length = nClasses probas)
    (hsum1 : ∀ p ∈ probas, p.sum = 1)
    (hnn : ∀ p ∈ probas, ∀ x ∈ p, 0 ≤ x)
    (hk1 : 1 ≤ k) (hk2 : k ≤ probas.length) :
    (weightedRow probas).sum = 1 ∧ (topkRow probas k).sum = 1 :=
  ⟨weightedRow_sum_one probas hne hlen hsum1,
    topkRow_sum_one probas k hlen hsum1 hk1 hk2⟩

theorem C9_predict_proba_rows_sum_one_witness :
    (([[(1:ℚ)]] : List (List ℚ)) ≠ []) ∧
    (∀ p ∈ ([[(1:ℚ)]] : List (List ℚ)),
      p.length = nClasses ([[(1:ℚ)]] : List (List ℚ))) ∧
    (∀ p ∈ ([[(1:ℚ)]] : List (List ℚ)), p.sum = 1) ∧
    (∀ p ∈ ([[(1:ℚ)]] : List (List ℚ)), ∀ x ∈ p, 0 ≤ x) ∧
    (1 ≤ 1) ∧ (1 ≤ ([[(1:ℚ)]] : List (List ℚ)).length) ∧
    ((weightedRow ([[(1:ℚ)]] : List (List ℚ))).sum = 1 ∧
      (topkRow ([[(1:ℚ)]] : List (List ℚ)) 1).sum = 1) :=
  ⟨List.cons_ne_nil _ _,
    by intro p hp; rw [List.mem_singleton] at hp; subst hp; rfl,
    by intro p hp; rw [List.mem_singleton] at hp; subst hp; simp,
    by intro p hp
       rw [List.mem_singleton] at hp
       subst hp
       intro x hx
       rw [List.mem_singleton] at hx
       subst hx
       norm_num,
    le_refl 1, by norm_num,
    C9_predict_proba_rows_sum_one ([[(1:ℚ)]] : List (List ℚ)) 1
      (List.cons_ne_nil _ _)
      (by intro p hp; rw [List.mem_singleton] at hp; subst hp; rfl)
      (by intro p hp; rw [List.mem_singleton] at hp; subst hp; simp)
      (by intro p hp
          rw [List.mem_singleton] at hp
          subst hp
          intro x hx
          rw [List.mem_singleton] at hx
          subst hx
          norm_num)
      (le_refl 1) (by norm_num)⟩

/-! ## Bagging feature subsets (`ConfidenceBagging.fit` / `fit_base`) -/

/-- Python `int(q)` for the non-negative quantities the source feeds it
(`train_n * sampling_ratio`, `n_features * max_features`): floor to a
natural number. -/
def pyInt (q : ℚ) : ℕ := (⌊q⌋).toNat

/-- `bag_features_n = int(X.shape[1] * self.max_features)` from
`ConfidenceBagging.fit`.  The source applies no minimum: the result is `0`
whenever `n_features * max_features < 1`. -/
def bag_features_n (n_features : ℕ) (max_features : ℚ) : ℕ :=
  pyInt ((n_features : ℚ) * max_features)

/-- `fit_base`'s feature subset: `features = random.sample(range(X.shape[1]), f_bag)`
followed by `features.sort()`.  The random draw is modelled by quantifying
over any admissible `draw` — `random.sample` guarantees distinct elements
of `range(n_features)`, of the requested size. -/
def fit_base_features (draw : List ℕ) : List ℕ :=
  draw.insertionSort (· ≤ ·)

theorem nodup_length_le_of_lt (l : List ℕ) (n : ℕ) (hnd : l.Nodup)
    (hlt : ∀ x ∈ l, x < n) : l.length ≤ n := by
  have hsub : l.toFinset ⊆ Finset.range n := by
    intro x hx
    rw [List.mem_toFinset] at hx
    rw [Finset.mem_range]
    exact hlt x hx
  calc l.length = l.toFinset.card := (List.toFinset_card_of_nodup hnd).symm
  _ ≤ (Finset.range n).card := Finset.card_le_card hsub
  _ = n := Finset.card_range n

/-- **C5 counterexample.**  The claimed "minimum of 1" does not exist in
the code: with 1 feature and the default `max_features = 0.7`,
`bag_features_n = int(1 * 0.7) = 0`, the only admissible draw is `[]`, and
the produced feature subset is empty. -/
theorem C5_counterexample :
    bag_features_n 1 (7/10) = 0 ∧
    ([] : List ℕ).Nodup ∧ (∀ x ∈ ([] : List ℕ), x < 1) ∧
    ([] : List ℕ).length = bag_features_n 1 (7/10) ∧
    ¬ (1 ≤ (fit_base_features ([] : List ℕ)).length) := by
  have h0 : bag_features_n 1 (7/10) = 0 := by
    rw [bag_features_n, pyInt]
    norm_num
  refine ⟨h0, List.nodup_nil, by simp, by simp [h0], ?_⟩
  intro hcon
  simp [fit_base_features, List.insertionSort] at hcon

/-- **C5 (amended).**  Every feature subset produced during bagging fit
has size exactly `floor(n_features * max_features)` — which may be `0`;
the code has no minimum-1 clamp — is at most the total feature count, and
its indices are unique and sorted strictly ascending. -/
theorem C5_feature_subsets (n_features : ℕ) (max_features : ℚ)
    (draw : List ℕ) (hnd : draw.Nodup) (hrange : ∀ x ∈ draw, x < n_features)
    (hsize : draw.length = bag_features_n n_features max_features) :
    (fit_base_features draw).length = bag_features_n n_features max_features ∧
    (fit_base_features draw).length ≤ n_features ∧
    List.Sorted (· < ·) (fit_base_features draw) := by
  have hperm : (fit_base_features draw).Perm draw :=
    List.perm_insertionSort _ draw
  have hlen : (fit_base_features draw).length = draw.length :=
    hperm.length_eq
  have hnd' : (fit_base_features draw).Nodup := hperm.nodup_iff.mpr hnd
  refine ⟨hlen.trans hsize, ?_, ?_⟩
  · rw [hlen]
    exact nodup_length_le_of_lt draw n_features hnd hrange
  · exact List.Sorted.lt_of_le (List.sorted_insertionSort _ draw) hnd'

theorem C5_feature_subsets_witness :
    (([2, 0] : List ℕ).Nodup) ∧ (∀ x ∈ ([2, 0] : List ℕ), x < 4) ∧
    (([2, 0] : List ℕ).length = bag_features_n 4 (7/10)) ∧
    ((fit_base_features [2, 0]).length = bag_features_n 4 (7/10) ∧
      (fit_base_features [2, 0]).length ≤ 4 ∧
      List.Sorted (· < ·) (fit_base_features [2, 0])) :=
  ⟨by decide, by decide,
    by rw [bag_features_n, pyInt]; norm_num; rfl,
    C5_feature_subsets 4 (7/10) [2, 0] (by decide) (by decide)
      (by rw [bag_features_n, pyInt]; norm_num; rfl)⟩

/-! ## Row-count requirement of `ConfidenceBagging.fit` -/

/-- Failure modes of the embedded fit/predict fragments. -/
inductive RunError
  | invalidSampleSize
  | indexOutOfRange
  | notFitted
  deriving Repr, DecidableEq

/-- `samples_n = int(train_n * self.sampling_ratio)` from `fit`. -/
def fit_samples_n (train_n : ℕ) (sampling_ratio : ℚ) : ℕ :=
  pyInt ((train_n : ℚ) * sampling_ratio)

/-- `self.X_ = X[[0, 1], :]` at the end of `ConfidenceBagging.fit`: fancy
indexing with rows 0 and 1, an `IndexError` when `X` has fewer than 2
rows. -/
def sliceX01 (X : List (List ℚ)) : Except RunError (List (List ℚ)) :=
  match X.get? 0, X.get? 1 with
  | some r0, some r1 => Except.ok [r0, r1]
  | _, _ => Except.error RunError.indexOutOfRange

/-- The row-count skeleton of `ConfidenceBagging.fit`: every member's
`draw_samples` runs `numpy.random.choice(X.shape[0], samples_n, replace=False)`,
which raises when `samples_n > X.shape[0]`; after all members are trained,
`fit` unconditionally stores `self.X_ = X[[0, 1], :]`. -/
def bagging_fit_rows (X : List (List ℚ)) (sampling_ratio : ℚ) :
    Except RunError (List (List ℚ)) :=
  if fit_samples_n X.length sampling_ratio ≤ X.length then sliceX01 X
  else Except.error RunError.invalidSampleSize

/-- **C10.**  Bagging fit requires at least 2 training rows: even when the
requested sample size is drawable, an `X` with fewer than 2 rows makes the
final `self.X_ = X[[0, 1], :]` step fail, while for any `X` with at least
2 rows that step succeeds (and stores rows 0 and 1). -/
theorem C10_fit_requires_two_rows (X : List (List ℚ)) (r : ℚ)
    (hdraw : fit_samples_n X.length r ≤ X.length) :
    (X.length < 2 →
      bagging_fit_rows X r = Except.error RunError.indexOutOfRange) ∧
    (2 ≤ X.length →
      bagging_fit_rows X r = Except.ok [X.getD 0 [], X.getD 1 []]) := by
  rw [bagging_fit_rows, if_pos hdraw]
  constructor
  · intro hlt
    match X, hlt with
    | [], _ => rfl
    | [x], _ => rfl
  · intro hge
    match X, hge with
    | x :: y :: t, _ =>
      rw [List.getD_cons_zero, List.getD_cons_succ, List.getD_cons_zero]
      rfl

theorem C10_fit_requires_two_rows_witness :
    (fit_samples_n ([[(1:ℚ)]] : List (List ℚ)).length (1/2)
      ≤ ([[(1:ℚ)]] : List (List ℚ)).length) ∧
    ((([[(1:ℚ)]] : List (List ℚ)).length < 2 →
      bagging_fit_rows ([[(1:ℚ)]] : List (List ℚ)) (1/2)
        = Except.error RunError.indexOutOfRange) ∧
    (2 ≤ ([[(1:ℚ)]] : List (List ℚ)).length →
      bagging_fit_rows ([[(1:ℚ)]] : List (List ℚ)) (1/2)
        = Except.ok [([[(1:ℚ)]] : List (List ℚ)).getD 0 [],
            ([[(1:ℚ)]] : List (List ℚ)).getD 1 []])) :=
  ⟨by rw [fit_samples_n, pyInt]; norm_num,
    C10_fit_requires_two_rows ([[(1:ℚ)]] : List (List ℚ)) (1/2)
      (by rw [fit_samples_n, pyInt]; norm_num)⟩

/-! ## `predict_proba` on an unfitted bagging ensemble (C4)

`ConfidenceBagging.predict_proba` contains no `check_is_fitted` (unlike
`get_diversity`); it immediately loops
`for i in range(0, self.n_base): ... self.estimators_[i] ...`.  On an
unfitted ensemble `self.estimators_` is the empty list set in `__init__`,
so the first access raises a plain `IndexError`. -/

/-- The member-access loop opening `predict_proba`, iterating `i` from
`start` for `nleft` more iterations; each trained member is abstracted by
its prediction data. -/
def gatherMembers {α : Type} (ests : List α) : ℕ → ℕ → Except RunError (List α)
  | _, 0 => Except.ok []
  | i, nleft + 1 =>
    match ests.get? i with
    | none => Except.error RunError.indexOutOfRange
    | some e =>
      match gatherMembers ests (i + 1) nleft with
      | Except.ok rest => Except.ok (e :: rest)
      | Except.error err => Except.error err

/-- The opening of `ConfidenceBagging.predict_proba`: access
`self.estimators_[i]` for `i in range(0, self.n_base)`. -/
def predict_proba_members {α : Type} (n_base : ℕ) (ests : List α) :
    Except RunError (List α) :=
  gatherMembers ests 0 n_base

/-- **C4 counterexample.**  On an unfitted bagging ensemble (default
`n_base = 10`, `estimators_ = []` from `__init__`), `predict_proba` fails
with an index error from the member-list access — not with
`NotFittedError` as the claim states. -/
theorem C4_counterexample :
    predict_proba_members 10 ([] : List (List (List ℚ)))
        = Except.error RunError.indexOutOfRange ∧
    predict_proba_members 10 ([] : List (List (List ℚ)))
        ≠ Except.error RunError.notFitted := by
  refine ⟨rfl, ?_⟩
  intro hcon
  rw [show predict_proba_members 10 ([] : List (List (List ℚ)))
      = Except.error RunError.indexOutOfRange from rfl] at hcon
  simp at hcon

/-- **C4 (amended).**  Calling the bagging ensemble's `predict_proba`
before fit has completed (no trained members) fails — but with an index
error raised at the first access of the empty `estimators_` list, before
any member prediction is computed; no `NotFittedError` check exists in
`predict_proba`. -/
theorem C4_unfitted_predict_fails {α : Type} (n_base : ℕ)
    (hn : 1 ≤ n_base) :
    predict_proba_members n_base ([] : List α)
      = Except.error RunError.indexOutOfRange := by
  match n_base, hn with
  | n + 1, _ => rfl

theorem C4_unfitted_predict_fails_witness :
    (1 ≤ 10) ∧
    predict_proba_members 10 ([] : List (List (List ℚ)))
      = Except.error RunError.indexOutOfRange :=
  ⟨by norm_num,
    C4_unfitted_predict_fails (α := List (List ℚ)) 10 (by norm_num)⟩

/-! ## Class-coverage repair (`ConfidenceBagging.draw_samples`) -/

/-- `missing_labels = [item for item in self.classes_ if item not in sample_labels]`
(membership in `unique_labels(sample_y)` is membership in `sample_y`). -/
def missingClasses (classes sample_y : List ℤ) : List ℤ :=
  classes.filter (fun c => decide (c ∉ sample_y))

/-- `draw_samples` for labeled data with `len(self.classes_) > 1`, after
the initial `indexes = numpy.random.choice(...)` draw:
`sample_x = X[indexes, :]`, `sample_y = y[indexes]`, then for each missing
class one row is appended — `new_sampled_index` is chosen by
`numpy.random.choice` among `numpy.where(y == missing_class)[0]`, modelled
by `pick`, and `sample_x`/`sample_y` get `X[new_sampled_index, :]` and the
class label appended. -/
def draw_samples_refined (X : List (List ℚ)) (y : List ℤ) (classes : List ℤ)
    (indexes : List ℕ) (pick : ℤ → ℕ) : List (List ℚ) × List ℤ :=
  (indexes.map (fun i => X.getD i []) ++
      (missingClasses classes (indexes.map (fun i => y.getD i 0))).map
        (fun c => X.getD (pick c) []),
    indexes.map (fun i => y.getD i 0) ++
      missingClasses classes (indexes.map (fun i => y.getD i 0)))

/-- **C8.**  For every labeled draw with at least 2 distinct classes, a
class absent from the initially drawn sample gets exactly one additional
row of that class appended (taken from the full dataset at a position
whose label is that class), so the returned sample contains at least one
row of every class of the problem.  `pick` validity models numpy's choice
among the positions where `y == c`, which the source requires to be
nonempty. -/
theorem C8_class_repair (X : List (List ℚ)) (y : List ℤ) (classes : List ℤ)
    (indexes : List ℕ) (pick : ℤ → ℕ)
    (hnd : classes.Nodup) (hcard : 2 ≤ classes.length)
    (hpick : ∀ c ∈ classes, pick c < y.length ∧ y.getD (pick c) 0 = c)
    (hXy : X.length = y.length) :
    (∀ c ∈ classes, c ∈ (draw_samples_refined X y classes indexes pick).2) ∧
    ((draw_samples_refined X y classes indexes pick).2.length
      = indexes.length
        + (missingClasses classes
            (indexes.map (fun i => y.getD i 0))).length) ∧
    (∀ c ∈ classes,
      (missingClasses classes (indexes.map (fun i => y.getD i 0))).count c
        = if c ∈ indexes.map (fun i => y.getD i 0) then 0 else 1) ∧
    (∀ c ∈ missingClasses classes (indexes.map (fun i => y.getD i 0)),
      y.getD (pick c) 0 = c ∧ X.getD (pick c) [] ∈ X) := by
  refine ⟨?_, ?_, ?_, ?_⟩
  · intro c hc
    rw [draw_samples_refined]
    simp only [List.mem_append]
    by_cases hmem : c ∈ indexes.map (fun i => y.getD i 0)
    · exact Or.inl hmem
    · refine Or.inr ?_
      rw [missingClasses, List.mem_filter]
      exact ⟨hc, by simp only [decide_eq_true_eq]; exact hmem⟩
  · rw [draw_samples_refined]
    simp only [List.length_append, List.length_map]
  · intro c hc
    by_cases hmem : c ∈ indexes.map (fun i => y.getD i 0)
    · rw [if_pos hmem, List.count_eq_zero]
      intro hcon
      rw [missingClasses, List.mem_filter] at hcon
      simp only [decide_eq_true_eq] at hcon
      exact hcon.2 hmem
    · rw [if_neg hmem, missingClasses]
      rw [List.count_filter (by simp only [decide_eq_true_eq]; exact hmem)]
      exact List.count_eq_one_of_mem hnd hc
  · intro c hc
    rw [missingClasses, List.mem_filter] at hc
    obtain ⟨h1, h2⟩ := hpick c hc.1
    exact ⟨h2, getD_mem_of_lt X [] (pick c) (by omega)⟩

theorem C8_class_repair_witness :
    (([0, 1] : List ℤ).Nodup) ∧ (2 ≤ ([0, 1] : List ℤ).length) ∧
    (∀ c ∈ ([0, 1] : List ℤ),
      (fun c : ℤ => if c = 0 then 0 else 1) c < ([(0:ℤ), 1] : List ℤ).length ∧
      ([(0:ℤ), 1] : List ℤ).getD ((fun c : ℤ => if c = 0 then 0 else 1) c) 0
        = c) ∧
    (([[0], [1]] : List (List ℚ)).length = ([(0:ℤ), 1] : List ℤ).length) ∧
    (∀ c ∈ ([0, 1] : List ℤ),
      c ∈ (draw_samples_refined [[0], [1]] [0, 1] [0, 1] [0]
        (fun c : ℤ => if c = 0 then 0 else 1)).2) :=
  ⟨by decide, by decide, by decide, by decide,
    (C8_class_repair [[0], [1]] [0, 1] [0, 1] [0]
      (fun c : ℤ => if c = 0 then 0 else 1)
      (by decide) (by decide) (by decide) (by decide)).1⟩

/-! ## `ConfidenceBoosting.__init__` hyper-parameter resolution (C6)

The Python signature is

`def __init__(self, clf, n_base=10, learning_rate=None, sampling_ratio=0.5, boost_thr=0.8, ...)`

so an argument the caller does not specify arrives as
`learning_rate = None`, `sampling_ratio = 0.5`, `boost_thr = 0.8`.  The
body then resolves

* `self.boost_thr = boost_thr if boost_thr is not None else 0.8`
* `self.learning_rate = learning_rate if learning_rate is not None else 2`
* `self.sampling_ratio = sampling_ratio if sampling_ratio is not None else 1 / n_base ** (1 / 2)`

`n_base ** (1 / 2)`, a floating-point square root in the source, is
modelled exactly as a real power. -/

noncomputable def cboost_init (n_base : ℕ) (learning_rate : Option ℝ)
    (sampling_ratio : Option ℝ) (boost_thr : Option ℝ) : ℝ × ℝ × ℝ :=
  (match boost_thr with
    | some v => v
    | none => 8/10,
   match learning_rate with
    | some v => v
    | none => 2,
   match sampling_ratio with
    | some v => v
    | none => 1 / (n_base : ℝ) ^ ((1 : ℝ)/2))

/-- **C6 counterexample.**  A `ConfidenceBoosting` constructed without
specifying `sampling_ratio` receives the signature default `0.5`, so the
`is not None` test succeeds and the used ratio is `0.5` — not
`1/sqrt(n_base)` as claimed: at `n_base = 16` the claim demands `1/4`,
the code keeps `1/2`. -/
theorem C6_counterexample :
    (cboost_init 16 none (some (1/2)) (some (8/10))).2.2 = 1/2 ∧
    1 / (16 : ℝ) ^ ((1 : ℝ)/2) = 1/4 ∧
    (cboost_init 16 none (some (1/2)) (some (8/10))).2.2
      ≠ 1 / (16 : ℝ) ^ ((1 : ℝ)/2) := by
  have h16 : (16 : ℝ) ^ ((1 : ℝ)/2) = 4 := by
    have h1 : (16 : ℝ) = (4 : ℝ) ^ (2 : ℝ) := by
      rw [show (2 : ℝ) = ((2 : ℕ) : ℝ) by norm_num, Real.rpow_natCast]
      norm_num
    rw [h1, ← Real.rpow_mul (by norm_num : (0:ℝ) ≤ 4)]
    norm_num
  refine ⟨rfl, by rw [h16], ?_⟩
  rw [show (cboost_init 16 none (some (1/2)) (some (8/10))).2.2 = 1/2
    from rfl, h16]
  norm_num

/-- **C6 (amended).**  When constructed without specifying
`sampling_ratio`, the ratio used is the signature default `0.5`; the
`1/sqrt(n_base)` expression is used only when `sampling_ratio` is passed
explicitly as `None`.  The defaults for `learning_rate` (signature default
`None`) and `boost_thr` when unspecified are `2` and `0.8`. -/
theorem C6_init_defaults (n_base : ℕ) :
    (∀ lr bt : Option ℝ, (cboost_init n_base lr (some (1/2)) bt).2.2 = 1/2) ∧
    (∀ bt : Option ℝ, ∀ sr : Option ℝ,
      (cboost_init n_base none sr bt).2.1 = 2) ∧
    (∀ lr sr : Option ℝ,
      (cboost_init n_base lr sr (some (8/10))).1 = 8/10) ∧
    (∀ lr bt : Option ℝ, (cboost_init n_base lr none bt).2.2
      = 1 / (n_base : ℝ) ^ ((1 : ℝ)/2)) :=
  ⟨fun _ _ => rfl, fun _ _ => rfl, fun _ _ => rfl, fun _ _ => rfl⟩

end ConfEns
